import Mathlib

/-!
# Verification of the rusty-iterators adapter library

Shallow embedding of the synchronous iterator adapters of the
`rusty-iterators` repository and proofs about them.

Modelling conventions, shared by every definition below:

* An upstream iterator of finite contents is modelled by the `List` of
  the elements it has still to produce; calling the Python `next()` on
  it pops the head, and an empty list means the call raises
  `StopIteration`.
* Python `int` fields are modelled by `Int` where negative values are
  reachable (`Take.size`, constructor parameters) and by `Nat` where the
  code only ever holds non-negative values.
* A Python method that can raise is modelled with an explicit sum type
  (`Option`/`Except`/a bespoke inductive) making the raised signal a
  value.
* Terminal operations that loop (`collect`, `count`, draining) are
  modelled by structural recursion, with explicit fuel where the
  recursion is driven by adapter state; every definition is executable.

The file is organised as definitions first (the embedding of the code),
then the lemmas and theorems about them.
-/

namespace RustyIterators

/-- Error raised synchronously by constructors on malformed parameters.
Models Python's `ValueError`, which the spec calls `InvalidArgument`. -/
inductive InitErr where
  | invalidArgument
  deriving DecidableEq, Repr

/-! ## `IterInterface` derived operations (`iterators/_sync.py`) -/

/-- `IterInterface.count` default (`_sync.py` lines 84-88): drain via
`next`, incrementing a counter for every produced item. The upstream is
the list of items still to produce. -/
def listCount {α : Type} : List α → Nat
  | [] => 0
  | _ :: rest => listCount rest + 1

/-- The `for item in self: last = item` loop shared by every `last`
implementation: folds the drained items, keeping the most recent one. -/
def lastLoop {α : Type} (acc : α) : List α → α
  | [] => acc
  | x :: rest => lastLoop x rest

/-- `IterInterface.last` of `iterators/_sync.py` (lines 109-113):
`last = self.next()` — on an empty upstream this first `next()` raises
`StopIteration`, which propagates out of `last()` (modelled as
`.error ()`) — then the drain loop keeps the final item. -/
def lastSync {α : Type} : List α → Except Unit α
  | [] => Except.error ()
  | x :: rest => Except.ok (lastLoop x rest)

/-- `IterInterface.last` of `sync_iterators/_internal.py` (lines 89-93)
and of `iter.py` (lines 44-48): starts from `NoValue()` and keeps the
final produced value, so an empty upstream returns the Absent variant. -/
def lastMaybe {α : Type} : List α → Option α
  | [] => none
  | x :: rest => some (lastLoop x rest)

/-! ## `Map.count` / `Enumerate.count` (`_sync.py`, `iter.py`) -/

/-- `Map.count` (`iterators/_sync.py` lines 473-474, `iter.py` lines
113-118): `return self.it.count()`. The body never applies the mapping
callable `f`; the second component instruments the number of `f`
invocations performed during the call, which is therefore `0`. -/
def mapCount {α β : Type} (upstream : List α) (f : α → β) : Nat × Nat :=
  (listCount upstream, 0)

/-- `Enumerate.count` (`iterators/_sync.py` lines 314-315): delegates
`count` to the upstream iterator. -/
def enumerateCount {α : Type} (upstream : List α) : Nat :=
  listCount upstream

/-! ## `Take` (`iterators/_sync.py` lines 531-572) -/

/-- State of a `Take` adapter. `it`, `size` and `taken` are the fields
set by `Take.__init__`; `calls` instruments how many times the adapter
has invoked the upstream's `next` (every invocation counts, including
one that raises `StopIteration`). -/
structure TakeSt (α : Type) where
  it : List α
  size : Int
  taken : Int
  calls : Nat
  deriving DecidableEq, Repr

/-- `Take.__init__` (`_sync.py` lines 547-550, identical in
`sync_iterators/_internal.py` lines 362-365): stores the fields and
performs no validation whatsoever, so it never raises. -/
def takeMk {α : Type} (it : List α) (size : Int) : Except InitErr (TakeSt α) :=
  Except.ok { it := it, size := size, taken := 0, calls := 0 }

/-- `Take.next` (`_sync.py` lines 567-572): if `taken == size`, raise
`StopIteration` without touching the upstream; else pull the upstream
(counted in `calls`), propagating its `StopIteration` (in which case
`taken` is not incremented), otherwise increment `taken` and return the
item. -/
def takeNext {α : Type} (s : TakeSt α) : Option α × TakeSt α :=
  if s.taken = s.size then
    (none, s)
  else
    match s.it with
    | [] => (none, { s with calls := s.calls + 1 })
    | x :: rest =>
        (some x, { s with it := rest, taken := s.taken + 1, calls := s.calls + 1 })

/-- Draining a `Take` adapter the way `collect`/`list(self)` does:
repeatedly call `next` until the first exhaustion signal. Fuel-indexed;
`s.it.length + 1` fuel always suffices. -/
def takeDrain {α : Type} : Nat → TakeSt α → List α × TakeSt α
  | 0, s => ([], s)
  | fuel + 1, s =>
      match takeNext s with
      | (none, s1) => ([], s1)
      | (some x, s1) =>
          let r := takeDrain fuel s1
          (x :: r.1, r.2)

/-! ## `Chain` (`iterators/_sync.py` lines 237-280) -/

/-- State of a `Chain` adapter: the two owned upstreams and the
`use_second` flag (initially `false`). -/
structure ChainSt (α : Type) where
  first : List α
  second : List α
  useSecond : Bool
  deriving DecidableEq, Repr

/-- `Chain.next` (`_sync.py` lines 272-280): when `use_second` is set,
pull `second`; otherwise pull `first` and, on its `StopIteration`, set
`use_second` and recurse once (the recursive `self.next()` necessarily
takes the `use_second` branch, so it is inlined here; the variant in
`sync_iterators/_internal.py` lines 336-343 writes that inlined form
directly). -/
def chainNext {α : Type} (s : ChainSt α) : Option α × ChainSt α :=
  if s.useSecond then
    match s.second with
    | [] => (none, s)
    | x :: rest => (some x, { s with second := rest })
  else
    match s.first with
    | x :: rest => (some x, { s with first := rest })
    | [] =>
        let s1 : ChainSt α := { s with useSecond := true }
        match s1.second with
        | [] => (none, s1)
        | x :: rest => (some x, { s1 with second := rest })

/-- Draining a `Chain` adapter via repeated `next` until the first
exhaustion signal (this is what `collect` does). Fuel-indexed. -/
def chainDrain {α : Type} : Nat → ChainSt α → List α
  | 0, _ => []
  | fuel + 1, s =>
      match chainNext s with
      | (none, _) => []
      | (some x, s1) => x :: chainDrain fuel s1

/-- `Chain(A, B).collect()`: drain a freshly constructed chain of the
two upstreams (`Chain.__init__`, `_sync.py` lines 253-256, sets
`use_second = False`). -/
def chainCollect {α : Type} (a b : List α) : List α :=
  chainDrain (a.length + b.length + 1) { first := a, second := b, useSecond := false }

/-! ## `StepBy` and `Windows` constructors -/

/-- State created by `StepBy.__init__` (fields only; `_sync.py` lines
502-504). -/
structure StepBySt (α : Type) where
  firstTake : Bool
  it : List α
  stepMinusOne : Int
  deriving DecidableEq, Repr

/-- `StepBy.__init__` (`_sync.py` lines 498-504, identical in
`sync_iterators/_internal.py` lines 287-293): raises `ValueError`
(`InvalidArgument`) when `step_size <= 0`, else stores the fields. -/
def stepByMk {α : Type} (it : List α) (stepSize : Int) : Except InitErr (StepBySt α) :=
  if stepSize ≤ 0 then Except.error InitErr.invalidArgument
  else Except.ok { firstTake := true, it := it, stepMinusOne := stepSize - 1 }

/-- State created by `Windows.__init__` (fields only, with the size kept
as the raw Python `int`). -/
structure WindowsRaw (α : Type) where
  it : List α
  size : Int
  cache : List α
  ptr : Int
  deriving DecidableEq, Repr

/-- `Windows.__init__` (`_sync.py` lines 589-593): stores the fields and
performs no validation of `size` at all, so construction never raises. -/
def windowsMk {α : Type} (it : List α) (size : Int) : Except InitErr (WindowsRaw α) :=
  Except.ok { it := it, size := size, cache := [], ptr := 0 }

/-! ## `CycleCached` (`iterators/_sync.py` lines 138-191)

The cache of a `CycleCached` instance is a Python list object; because
`CycleCached.copy` stores the *same* list object into the copy
(`obj.cache = self.cache`, line 173), the cache must be modelled apart
from the per-instance fields so that two instances can share it. -/

/-- The per-instance fields of `CycleCached` other than the cache:
the upstream, the replay cursor and the `use_cache` flag
(`CycleCached.__init__`, lines 156-160, starts them at the given
upstream, `0` and `False`). -/
structure CCView (α : Type) where
  it : List α
  ptr : Nat
  useCache : Bool
  deriving DecidableEq, Repr

/-- Outcome of one `CycleCached.next` call. The method never raises
`StopIteration` itself: it either returns an item or — when replay mode
is entered with an empty cache — evaluates `self.ptr % len(self.cache)`
with `len` zero, which in Python raises `ZeroDivisionError`. -/
inductive CCOut (α : Type) where
  | val : α → CCOut α
  | zeroDiv : CCOut α
  deriving DecidableEq, Repr

/-- The replay branch of `CycleCached.next` (lines 180-184): reduce the
cursor modulo the cache length (raising `ZeroDivisionError` when the
cache is empty), return the element there and advance the cursor. -/
def ccReplay {α : Type} (cache : List α) (v : CCView α) : CCOut α × List α × CCView α :=
  if h : cache.length = 0 then (CCOut.zeroDiv, cache, v)
  else
    let p := v.ptr % cache.length
    (CCOut.val (cache.get ⟨p, Nat.mod_lt _ (Nat.pos_of_ne_zero h)⟩),
     cache, { v with ptr := p + 1 })

/-- `CycleCached.next` (lines 179-191), acting on the (possibly shared)
cache and the instance's own fields: in replay mode run `ccReplay`; else
pull the upstream, appending any produced item to the cache; on upstream
`StopIteration`, set `use_cache` and recurse once (`return self.next()`,
line 191) — that recursive call necessarily takes the replay branch, so
it is `ccReplay` on the flagged state. -/
def ccNext {α : Type} (cache : List α) (v : CCView α) : CCOut α × List α × CCView α :=
  if v.useCache then ccReplay cache v
  else
    match v.it with
    | x :: rest => (CCOut.val x, cache ++ [x], { v with it := rest })
    | [] => ccReplay cache { v with useCache := true }

/-- A pair of `CycleCached` instances sharing one cache object, as
produced by `CycleCached.copy`: `a` is the original, `b` the copy. -/
structure CCPair (α : Type) where
  cache : List α
  a : CCView α
  b : CCView α
  deriving DecidableEq, Repr

/-- `CycleCached.copy` (lines 171-176): build a fresh instance over
`self.it.copy()` (an independent, value-equal upstream), then overwrite
its fields: `obj.cache = self.cache` shares the very cache object, and
`obj.ptr`, `obj.use_cache` copy the scalars. The result is the pair of
the original and the copy, with the one shared cache. -/
def ccCopy {α : Type} (cache : List α) (v : CCView α) : CCPair α :=
  { cache := cache
    a := v
    b := { it := v.it, ptr := v.ptr, useCache := v.useCache } }

/-- `next()` on the original of a shared-cache pair. -/
def pairNextA {α : Type} (s : CCPair α) : CCOut α × CCPair α :=
  let r := ccNext s.cache s.a
  (r.1, { cache := r.2.1, a := r.2.2, b := s.b })

/-- `next()` on the copy of a shared-cache pair. -/
def pairNextB {α : Type} (s : CCPair α) : CCOut α × CCPair α :=
  let r := ccNext s.cache s.b
  (r.1, { cache := r.2.1, a := s.a, b := r.2.2 })

/-- The first `n` values produced by the copy `b` of a shared-cache
pair, `none` if some call raises `ZeroDivisionError`. -/
def runB {α : Type} : Nat → CCPair α → Option (List α)
  | 0, _ => some []
  | n + 1, s =>
      match pairNextB s with
      | (CCOut.val x, s1) => (runB n s1).map (x :: ·)
      | (CCOut.zeroDiv, _) => none

/-! ## `CycleCopy` (`iterators/_sync.py` lines 194-234) -/

/-- State of a `CycleCopy` adapter: `CycleCopy.__init__` (lines 210-212)
stores `it = it.copy()` (the working copy) and `orig` (the pristine
upstream). -/
structure CpSt (α : Type) where
  it : List α
  orig : List α
  deriving DecidableEq, Repr

/-- Outcome of one `CycleCopy.next` call: an item, or `StopIteration`
propagating from the second pull (with the state after the call). -/
inductive CpRes (α : Type) where
  | val : α → CpSt α → CpRes α
  | stop : CpSt α → CpRes α
  deriving DecidableEq, Repr

/-- `CycleCopy.next` (lines 229-234): pull the working copy; on its
`StopIteration`, replace it with a fresh copy of `orig` and pull that
once — if `orig` itself is empty this second pull raises
`StopIteration`, which propagates to the caller (there is no further
recursion). -/
def cpNext {α : Type} (s : CpSt α) : CpRes α :=
  match s.it with
  | x :: rest => CpRes.val x { s with it := rest }
  | [] =>
      match s.orig with
      | y :: rest => CpRes.val y { it := rest, orig := s.orig }
      | [] => CpRes.stop { it := s.orig, orig := s.orig }

/-! ## `Windows` runtime (`iterators/_sync.py` lines 575-632)

`Windows.next` mutates its cache list in place and returns freshly
built list objects. To state anything about aliasing of the returned
windows, list objects are modelled in a small heap: an address is an
index into `cells`, the adapter state holds the *address* of its cache,
and every list the code freshly builds is allocated at a new address. -/

/-- A heap of list objects: address `i` holds `cells[i]`. -/
structure WHeap (α : Type) where
  cells : List (List α)
  deriving DecidableEq, Repr

/-- Read the list object stored at an address (unallocated addresses
read as `[]`; the code never reads one). -/
def WHeap.read {α : Type} (h : WHeap α) (a : Nat) : List α :=
  h.cells.getD a []

/-- Overwrite the list object at an address (in-place mutation of a
Python list). -/
def WHeap.write {α : Type} (h : WHeap α) (a : Nat) (v : List α) : WHeap α :=
  ⟨h.cells.set a v⟩

/-- Allocate a fresh list object, returning its (new) address. -/
def WHeap.alloc {α : Type} (h : WHeap α) (v : List α) : Nat × WHeap α :=
  (h.cells.length, ⟨h.cells ++ [v]⟩)

/-- Runtime state of a `Windows` adapter; `size` and `ptr` are kept as
`Nat` (the adapter is modelled for positive sizes — for `size <= 0` the
Python code would raise `ZeroDivisionError` at `ptr % size`, see the
constructor model `windowsMk` for the unvalidated raw state). -/
structure WSt (α : Type) where
  it : List α
  size : Nat
  cacheAddr : Nat
  ptr : Nat
  deriving DecidableEq, Repr

/-- The buffer-fill loop of `Windows.next` (lines 630-631):
`for _ in range(size): self.cache.append(self.it.next())`. Returns the
extended cache, the remaining upstream, and whether the loop completed
(`false` when the upstream raised `StopIteration` mid-loop, leaving the
partial appends in place). -/
def wFill {α : Type} : List α → List α → Nat → List α × List α × Bool
  | cache, it, 0 => (cache, it, true)
  | cache, it, k + 1 =>
      match it with
      | [] => (cache, it, false)
      | x :: rest => wFill (cache ++ [x]) rest k

/-- The snapshot loop of `Windows.next` (lines 623-627): `result = []`,
then `size` times `ptr %= size; result.append(cache[ptr]); ptr += 1`.
Returns the freshly built snapshot and the final `ptr` value. -/
def wCollectLoop {α : Type} [Inhabited α] (cache : List α) (size : Nat) :
    Nat → Nat → List α × Nat
  | 0, ptr => ([], ptr)
  | k + 1, ptr =>
      let p := ptr % size
      let r := wCollectLoop cache size k (p + 1)
      (cache.getD p default :: r.1, r.2)

/-- `Windows.next` (lines 617-632) over the heap model. If the cache is
full: overwrite the oldest slot with the next upstream item (upstream
`StopIteration` propagates, nothing mutated), rebuild the window into a
*fresh* list object and return its address. Otherwise: run the fill
loop (mutating the cache in place), and on completion return the
address of a fresh copy `self.cache[::]` of the cache. Returns the
produced address (or `none` for `StopIteration`), the heap and the
state after the call. -/
def wNext {α : Type} [Inhabited α] (h : WHeap α) (s : WSt α) :
    Option Nat × WHeap α × WSt α :=
  let cache := h.read s.cacheAddr
  if cache.length = s.size then
    match s.it with
    | [] => (none, h, s)
    | x :: rest =>
        let p := s.ptr % s.size
        let cache1 := cache.set p x
        let r := wCollectLoop cache1 s.size s.size (p + 1)
        let h1 := h.write s.cacheAddr cache1
        let a := h1.alloc r.1
        (some a.1, a.2, { s with it := rest, ptr := r.2 })
  else
    let f := wFill cache s.it s.size
    let h1 := h.write s.cacheAddr f.1
    match f.2.2 with
    | true =>
        let a := h1.alloc f.1
        (some a.1, a.2, { s with it := f.2.1 })
    | false => (none, h1, { s with it := f.2.1 })

/-- Draining a `Windows` adapter: repeated `next` until the first
`StopIteration`, collecting the addresses of the returned window
objects. Fuel-indexed. -/
def wDrain {α : Type} [Inhabited α] : Nat → WHeap α → WSt α → List Nat × WHeap α
  | 0, h, _ => ([], h)
  | fuel + 1, h, s =>
      match wNext h s with
      | (none, h1, _) => ([], h1)
      | (some a, h1, s1) =>
          let r := wDrain fuel h1 s1
          (a :: r.1, r.2)

/-- Build a `Windows` adapter over upstream `S` with window size `w`
(cache allocated empty at address `0`, as by `Windows.__init__`) and
drain it, returning the window addresses and the final heap. -/
def windowsRun {α : Type} [Inhabited α] (S : List α) (w : Nat) : List Nat × WHeap α :=
  wDrain (S.length + 1) ⟨[[]]⟩ { it := S, size := w, cacheAddr := 0, ptr := 0 }

/-- `Windows.count` (`_sync.py` lines 611-614): delegates to the
upstream's `count` and returns `max(0, upstream_count - 1)`, with no
reference to `self.size`. -/
def windowsCount {α : Type} (upstream : List α) : Int :=
  max 0 ((listCount upstream : Int) - 1)

/-- The sliding of a full window along the remaining upstream: each
step drops the oldest element and appends the freshly pulled one. Used
as the specification value of the steady-state drain. -/
def slideList {α : Type} (W : List α) : List α → List (List α)
  | [] => []
  | x :: rest => (W.drop 1 ++ [x]) :: slideList (W.drop 1 ++ [x]) rest

/-! # Theorems -/

/-! ## Generic list lemmas used by the proofs -/

theorem listCount_eq_length {α : Type} (l : List α) : listCount l = l.length := by
  induction l with
  | nil => rfl
  | cons x rest ih => simp [listCount, ih]

theorem lastLoop_eq_getLast {α : Type} (l : List α) :
    ∀ a : α, lastLoop a l = (a :: l).getLast (by simp) := by
  induction l with
  | nil => intro a; rfl
  | cons x rest ih =>
      intro a
      rw [lastLoop, ih x]
      exact (List.getLast_cons (by simp)).symm

/-! ## `Take` drain characterisation -/

theorem takeDrain_nonneg {α : Type} (size : Int) :
    ∀ (it : List α) (taken : Int) (calls : Nat) (fuel : Nat),
      taken ≤ size → it.length + 1 ≤ fuel →
      takeDrain fuel { it := it, size := size, taken := taken, calls := calls } =
        (it.take (size - taken).toNat,
         { it := it.drop (size - taken).toNat, size := size,
           taken := taken + min (size - taken) it.length,
           calls := calls +
             (if size - taken ≤ (it.length : Int) then (size - taken).toNat
              else it.length + 1) }) := by
  intro it
  induction it with
  | nil =>
      intro taken calls fuel hts hfuel
      match fuel, hfuel with
      | fuel + 1, _ =>
        by_cases h : taken = size
        · subst h
          simp [takeDrain, takeNext]
        · have hlt : taken < size := lt_of_le_of_ne hts h
          simp only [takeDrain, takeNext, if_neg h]
          simp only [Prod.mk.injEq, TakeSt.mk.injEq, List.take_nil, List.drop_nil,
            List.length_nil]
          and_intros <;> first | trivial | omega | (split_ifs <;> omega)
  | cons x rest ih =>
      intro taken calls fuel hts hfuel
      match fuel, hfuel with
      | fuel + 1, hfuel =>
        by_cases h : taken = size
        · subst h
          simp [takeDrain, takeNext]
          omega
        · have hlt : taken < size := lt_of_le_of_ne hts h
          have hrec := ih (taken + 1) (calls + 1) fuel (by omega) (by
            simp at hfuel ⊢; omega)
          have htn : (size - taken).toNat = (size - (taken + 1)).toNat + 1 := by omega
          simp only [takeDrain, takeNext, if_neg h]
          rw [hrec]
          simp only [Prod.mk.injEq, TakeSt.mk.injEq, htn, List.take_succ_cons,
            List.drop_succ_cons, List.length_cons]
          and_intros <;> first | trivial | omega | (split_ifs <;> omega)

theorem takeDrain_neg {α : Type} (size : Int) (hneg : size < 0) :
    ∀ (it : List α) (taken : Int) (calls : Nat) (fuel : Nat),
      0 ≤ taken → it.length + 1 ≤ fuel →
      takeDrain fuel { it := it, size := size, taken := taken, calls := calls } =
        (it, { it := [], size := size, taken := taken + it.length,
               calls := calls + it.length + 1 }) := by
  intro it
  induction it with
  | nil =>
      intro taken calls fuel ht hfuel
      match fuel, hfuel with
      | fuel + 1, _ =>
        have h : ¬ (taken = size) := by omega
        simp only [takeDrain, takeNext, if_neg h]
        simp only [Prod.mk.injEq, TakeSt.mk.injEq, List.length_nil]
        and_intros <;> first | trivial | omega
  | cons x rest ih =>
      intro taken calls fuel ht hfuel
      match fuel, hfuel with
      | fuel + 1, hfuel =>
        have h : ¬ (taken = size) := by omega
        have hrec := ih (taken + 1) (calls + 1) fuel (by omega) (by
          simp at hfuel ⊢; omega)
        simp only [takeDrain, takeNext, if_neg h]
        rw [hrec]
        simp only [Prod.mk.injEq, TakeSt.mk.injEq, List.length_cons]
        and_intros <;> first | trivial | omega

/-! ## `Chain` drain characterisation -/

theorem chainDrain_second {α : Type} :
    ∀ (b : List α) (f : List α) (fuel : Nat), b.length + 1 ≤ fuel →
      chainDrain fuel { first := f, second := b, useSecond := true } = b := by
  intro b
  induction b with
  | nil =>
      intro f fuel hfuel
      match fuel, hfuel with
      | fuel + 1, _ => simp [chainDrain, chainNext]
  | cons x rest ih =>
      intro f fuel hfuel
      match fuel, hfuel with
      | fuel + 1, hfuel =>
        simp only [chainDrain, chainNext]
        simp only [if_pos]
        exact congrArg (x :: ·) (ih f fuel (by simp at hfuel ⊢; omega))

theorem chainDrain_both {α : Type} :
    ∀ (a b : List α) (fuel : Nat), a.length + b.length + 1 ≤ fuel →
      chainDrain fuel { first := a, second := b, useSecond := false } = a ++ b := by
  intro a
  induction a with
  | nil =>
      intro b fuel hfuel
      match fuel, hfuel with
      | fuel + 1, hfuel =>
        cases b with
        | nil => simp [chainDrain, chainNext]
        | cons y rest =>
            simp only [chainDrain, chainNext]
            simp only [List.nil_append]
            exact congrArg (y :: ·) (chainDrain_second rest [] fuel (by
              simp at hfuel ⊢; omega))
  | cons x rest ih =>
      intro b fuel hfuel
      match fuel, hfuel with
      | fuel + 1, hfuel =>
        simp only [chainDrain, chainNext]
        simp only [List.cons_append]
        exact congrArg (x :: ·) (ih b fuel (by simp at hfuel ⊢; omega))

/-! ## List-indexing facts used by the `Windows` proofs -/

theorem getD_set_self {α : Type} :
    ∀ (l : List α) (i : Nat) (a d : α), i < l.length → (l.set i a).getD i d = a := by
  intro l
  induction l with
  | nil => intro i a d h; simp at h
  | cons x xs ih =>
      intro i a d h
      cases i with
      | zero => rfl
      | succ i => exact ih i a d (by simp at h; omega)

theorem getD_set_ne {α : Type} :
    ∀ (l : List α) (i j : Nat) (a d : α), i ≠ j → (l.set i a).getD j d = l.getD j d := by
  intro l
  induction l with
  | nil => intro i j a d _; simp [List.set]
  | cons x xs ih =>
      intro i j a d hij
      cases i with
      | zero =>
          cases j with
          | zero => omega
          | succ j => rfl
      | succ i =>
          cases j with
          | zero => rfl
          | succ j => exact ih i j a d (by omega)

theorem getD_append_left {α : Type} :
    ∀ (l m : List α) (i : Nat) (d : α), i < l.length → (l ++ m).getD i d = l.getD i d := by
  intro l
  induction l with
  | nil => intro m i d h; simp at h
  | cons x xs ih =>
      intro m i d h
      cases i with
      | zero => rfl
      | succ i => exact ih m i d (by simp at h; omega)

theorem getD_append_len {α : Type} :
    ∀ (l : List α) (x d : α), (l ++ [x]).getD l.length d = x := by
  intro l
  induction l with
  | nil => intro x d; rfl
  | cons y ys ih => intro x d; exact ih x d

theorem getD_drop_one {α : Type} :
    ∀ (l : List α) (i : Nat) (d : α), (l.drop 1).getD i d = l.getD (i + 1) d := by
  intro l i d
  cases l with
  | nil => simp
  | cons x xs => rfl

theorem list_eq_of_getD {α : Type} (d : α) :
    ∀ (l m : List α), l.length = m.length →
      (∀ i, i < l.length → l.getD i d = m.getD i d) → l = m := by
  intro l
  induction l with
  | nil =>
      intro m hlen _
      cases m with
      | nil => rfl
      | cons y ys => simp at hlen
  | cons x xs ih =>
      intro m hlen hpt
      cases m with
      | nil => simp at hlen
      | cons y ys =>
          have h0 := hpt 0 (by simp)
          simp only [List.getD_cons_zero] at h0
          subst h0
          have hrec := ih ys (by simp at hlen; omega) (fun i hi => by
            have := hpt (i + 1) (by simp at hi ⊢; omega)
            simpa using this)
          rw [hrec]

theorem getD_map_range {α : Type} (f : Nat → α) (d : α) (n i : Nat) (h : i < n) :
    ((List.range n).map f).getD i d = f i := by
  rw [List.getD_eq_getElem _ d (by simp [h])]
  simp

theorem add_mod_ne {p q w : Nat} (hp : p < w) (hq0 : 0 < q) (hq : q < w) :
    (p + q) % w ≠ p := by
  rcases Nat.lt_or_ge (p + q) w with h | h
  · rw [Nat.mod_eq_of_lt h]; omega
  · have h2 : p + q - w < w := by omega
    rw [Nat.mod_eq_sub_mod h, Nat.mod_eq_of_lt h2]; omega

/-! ## `Windows` loop characterisations -/

theorem wFill_complete {α : Type} :
    ∀ (k : Nat) (cache it : List α), k ≤ it.length →
      wFill cache it k = (cache ++ it.take k, it.drop k, true) := by
  intro k
  induction k with
  | zero => intro cache it _; simp [wFill]
  | succ k ih =>
      intro cache it h
      cases it with
      | nil => simp at h
      | cons x rest =>
          rw [wFill, ih (cache ++ [x]) rest (by simp at h; omega)]
          simp

theorem wCollectLoop_fst {α : Type} [Inhabited α] (cache : List α) (size : Nat) :
    ∀ (k ptr : Nat),
      (wCollectLoop cache size k ptr).1 =
        (List.range k).map (fun i => cache.getD ((ptr + i) % size) default) := by
  intro k
  induction k with
  | zero => intro ptr; simp [wCollectLoop]
  | succ k ih =>
      intro ptr
      rw [List.range_succ_eq_map, List.map_cons, List.map_map]
      show cache.getD (ptr % size) default :: (wCollectLoop cache size k (ptr % size + 1)).1 = _
      rw [ih (ptr % size + 1)]
      congr 1
      apply List.map_congr_left
      intro i _
      show cache.getD ((ptr % size + 1 + i) % size) default =
        cache.getD ((ptr + Nat.succ i) % size) default
      have h1 : ptr % size + 1 + i = ptr % size + (1 + i) := by omega
      have h2 : ptr + Nat.succ i = ptr + (1 + i) := by omega
      rw [h1, h2, Nat.mod_add_mod]

theorem wCollectLoop_snd {α : Type} [Inhabited α] (cache : List α) (size : Nat) :
    ∀ (k ptr : Nat), 0 < k →
      (wCollectLoop cache size k ptr).2 = (ptr + (k - 1)) % size + 1 := by
  intro k
  induction k with
  | zero => intro ptr h; omega
  | succ k ih =>
      intro ptr _
      show (wCollectLoop cache size k (ptr % size + 1)).2 = _
      cases Nat.eq_zero_or_pos k with
      | inl h0 =>
          subst h0
          simp [wCollectLoop, Nat.mod_add_mod]
      | inr hk =>
          rw [ih (ptr % size + 1) hk]
          have h1 : ptr % size + 1 + (k - 1) = ptr % size + k := by omega
          have h2 : Nat.succ k - 1 = k := by omega
          rw [h1, h2, Nat.mod_add_mod]

/-- A heap whose cache cell (address `0`) holds a list of positive
length has at least one cell. -/
theorem heap_cells_pos {α : Type} (h : WHeap α) (w : Nat) (hw : 0 < w)
    (hcl : (h.read 0).length = w) : 0 < h.cells.length := by
  cases hc : h.cells with
  | nil =>
      exfalso
      have : h.read 0 = [] := by simp [WHeap.read, hc]
      rw [this] at hcl
      simp at hcl
      omega
  | cons c cs => simp

/-- One steady-state step of `Windows.next`: from a full cache that is
the rotation (by `ptr`) of the previously returned window `W`, pulling
`x` overwrites the oldest slot, allocates the new window
`W.drop 1 ++ [x]` at the fresh address `h.cells.length`, leaves all
other allocated cells untouched, and re-establishes the rotation
invariant at the advanced cursor. -/
theorem wNext_steady {α : Type} [Inhabited α] (w : Nat) (hw : 0 < w)
    (h : WHeap α) (x : α) (rest : List α) (ptr : Nat) (W : List α)
    (hcl : (h.read 0).length = w) (hWl : W.length = w)
    (hinv : ∀ i, i < w → (h.read 0).getD ((ptr + i) % w) default = W.getD i default) :
    ∃ h2 : WHeap α,
      wNext h { it := x :: rest, size := w, cacheAddr := 0, ptr := ptr } =
        (some h.cells.length, h2,
         { it := rest, size := w, cacheAddr := 0, ptr := ptr % w + 1 })
      ∧ h2.cells.length = h.cells.length + 1
      ∧ h2.read h.cells.length = W.drop 1 ++ [x]
      ∧ (∀ a, a ≠ 0 → a < h.cells.length → h2.read a = h.read a)
      ∧ (h2.read 0).length = w
      ∧ (∀ i, i < w →
          (h2.read 0).getD ((ptr % w + 1 + i) % w) default =
            (W.drop 1 ++ [x]).getD i default) := by
  have hpos := heap_cells_pos h w hw hcl
  set cache := h.read 0 with hcache
  set p := ptr % w with hp
  have hplt : p < w := Nat.mod_lt _ hw
  set cache1 := cache.set p x with hcache1
  have hc1l : cache1.length = w := by simp [hcache1, hcl]
  -- the new window, pointwise
  have hWl1 : (W.drop 1 ++ [x]).length = w := by
    simp [List.length_drop, hWl]; omega
  have hpt : ∀ i, i < w →
      cache1.getD ((p + 1 + i) % w) default = (W.drop 1 ++ [x]).getD i default := by
    intro i hi
    by_cases hlast : i = w - 1
    · subst hlast
      have h1 : p + 1 + (w - 1) = p + w := by omega
      rw [h1, Nat.add_mod_right, Nat.mod_eq_of_lt hplt]
      rw [getD_set_self cache p x default (by rw [hcl]; exact hplt)]
      have h2 : w - 1 = (W.drop 1).length := by simp [List.length_drop, hWl]
      rw [h2, getD_append_len]
    · have hi1 : 1 + i < w := by omega
      have h1 : p + 1 + i = p + (1 + i) := by omega
      rw [h1]
      have hne : (p + (1 + i)) % w ≠ p := add_mod_ne hplt (by omega) hi1
      rw [getD_set_ne cache p ((p + (1 + i)) % w) x default (fun he => hne he.symm)]
      have h2 : (p + (1 + i)) % w = (ptr + (1 + i)) % w := by
        rw [hp, Nat.mod_add_mod]
      rw [h2, hinv (1 + i) hi1]
      rw [getD_append_left (W.drop 1) [x] i default (by
        simp [List.length_drop, hWl]; omega)]
      rw [getD_drop_one]
      congr 1
      omega
  -- the snapshot built by the collect loop is the new window
  have hfst : (wCollectLoop cache1 w w (p + 1)).1 = W.drop 1 ++ [x] := by
    rw [wCollectLoop_fst]
    apply list_eq_of_getD default
    · simp [hWl1]
      omega
    · intro i hi
      have hi2 : i < w := by simpa using hi
      rw [getD_map_range _ _ w i hi2]
      exact hpt i hi2
  have hsnd : (wCollectLoop cache1 w w (p + 1)).2 = p + 1 := by
    rw [wCollectLoop_snd cache1 w w (p + 1) hw]
    have h1 : p + 1 + (w - 1) = p + w := by omega
    rw [h1, Nat.add_mod_right, Nat.mod_eq_of_lt hplt]
  -- execute the step
  refine ⟨⟨(h.cells.set 0 cache1) ++ [W.drop 1 ++ [x]]⟩, ?_, ?_, ?_, ?_, ?_, ?_⟩
  · show wNext h _ = _
    rw [wNext]
    simp only [hcache.symm, hcl, if_pos rfl]
    rw [hfst, hsnd]
    simp [WHeap.write, WHeap.alloc, List.length_set, hp]
  · simp [List.length_set]
  · show ((h.cells.set 0 cache1) ++ [W.drop 1 ++ [x]]).getD h.cells.length [] = _
    have : h.cells.length = (h.cells.set 0 cache1).length := by simp
    rw [this, getD_append_len]
  · intro a ha0 halt
    show ((h.cells.set 0 cache1) ++ [W.drop 1 ++ [x]]).getD a [] = h.read a
    rw [getD_append_left _ _ a [] (by simp; omega)]
    exact getD_set_ne h.cells 0 a cache1 [] (fun he => ha0 he.symm)
  · show (((h.cells.set 0 cache1) ++ [W.drop 1 ++ [x]]).getD 0 []).length = w
    rw [getD_append_left _ _ 0 [] (by simp; omega)]
    rw [getD_set_self h.cells 0 cache1 [] hpos]
    exact hc1l
  · intro i hi
    show (((h.cells.set 0 cache1) ++ [W.drop 1 ++ [x]]).getD 0 []).getD
        ((ptr % w + 1 + i) % w) default = _
    rw [getD_append_left _ _ 0 [] (by simp; omega)]
    rw [getD_set_self h.cells 0 cache1 [] hpos]
    exact hpt i hi

/-- The first `Windows.next` call over a fresh adapter with `w ≤ |S|`:
the fill loop consumes `w` elements into the cache, and the returned
window is a fresh copy of the cache allocated at address `1`. -/
theorem wNext_first {α : Type} [Inhabited α] (S : List α) (w : Nat) (hw : 0 < w)
    (hwL : w ≤ S.length) :
    wNext (⟨[[]]⟩ : WHeap α) { it := S, size := w, cacheAddr := 0, ptr := 0 } =
      (some 1, ⟨[S.take w, S.take w]⟩,
       { it := S.drop w, size := w, cacheAddr := 0, ptr := 0 }) := by
  rw [wNext]
  have hread : (⟨[[]]⟩ : WHeap α).read 0 = [] := rfl
  rw [hread]
  have hne : ¬ (([] : List α).length = w) := by simp; omega
  rw [if_neg hne, wFill_complete w [] S hwL]
  simp [WHeap.write, WHeap.alloc]

/-- Unfolding equation for one `wDrain` step. -/
theorem wDrain_succ {α : Type} [Inhabited α] (fuel : Nat) (h : WHeap α) (s : WSt α) :
    wDrain (fuel + 1) h s =
      match wNext h s with
      | (none, h1, _) => ([], h1)
      | (some a, h1, s1) => (a :: (wDrain fuel h1 s1).1, (wDrain fuel h1 s1).2) := rfl

/-- Draining a `Windows` adapter from the steady state (full cache that
is the rotation of the last window `W`, remaining upstream `rest`):
one window per remaining element, allocated at consecutive fresh
addresses; previously allocated cells other than the cache keep their
contents; and the windows read back from the final heap are the slide
of `W` along `rest`. -/
theorem wDrain_steady {α : Type} [Inhabited α] (w : Nat) (hw : 0 < w) :
    ∀ (rest : List α) (fuel : Nat) (h : WHeap α) (ptr : Nat) (W : List α),
      rest.length + 1 ≤ fuel →
      (h.read 0).length = w →
      W.length = w →
      (∀ i, i < w → (h.read 0).getD ((ptr + i) % w) default = W.getD i default) →
      (wDrain fuel h { it := rest, size := w, cacheAddr := 0, ptr := ptr }).1 =
        (List.range rest.length).map (fun i => h.cells.length + i)
      ∧ (wDrain fuel h
          { it := rest, size := w, cacheAddr := 0, ptr := ptr }).2.cells.length =
        h.cells.length + rest.length
      ∧ (∀ a, a ≠ 0 → a < h.cells.length →
          (wDrain fuel h { it := rest, size := w, cacheAddr := 0, ptr := ptr }).2.read a =
            h.read a)
      ∧ (∀ i, i < rest.length →
          (wDrain fuel h { it := rest, size := w, cacheAddr := 0, ptr := ptr }).2.read
            (h.cells.length + i) = (slideList W rest).getD i []) := by
  intro rest
  induction rest with
  | nil =>
      intro fuel h ptr W hfuel hcl hWl hinv
      match fuel, hfuel with
      | fuel + 1, _ =>
        have hstep : wNext h { it := ([] : List α), size := w, cacheAddr := 0, ptr := ptr } =
            (none, h, { it := ([] : List α), size := w, cacheAddr := 0, ptr := ptr }) := by
          rw [wNext]
          simp [hcl]
        rw [wDrain_succ, hstep]
        refine ⟨by simp, by simp, fun a _ _ => rfl, by simp⟩
  | cons x r ih =>
      intro fuel h ptr W hfuel hcl hWl hinv
      match fuel, hfuel with
      | fuel + 1, hfuel =>
        obtain ⟨h2, hstep, hlen2, hwin, hold, hcl2, hinv2⟩ :=
          wNext_steady w hw h x r ptr W hcl hWl hinv
        have hW1l : (W.drop 1 ++ [x]).length = w := by
          simp [List.length_drop, hWl]; omega
        have hrec := ih fuel h2 (ptr % w + 1) (W.drop 1 ++ [x])
          (by simp at hfuel ⊢; omega) hcl2 hW1l hinv2
        rw [wDrain_succ, hstep]
        have hpos := heap_cells_pos h w hw hcl
        refine ⟨?_, ?_, ?_, ?_⟩
        · show h.cells.length :: (wDrain fuel h2 _).1 = _
          rw [hrec.1, hlen2]
          simp only [List.length_cons]
          rw [List.range_succ_eq_map, List.map_cons, List.map_map, Nat.add_zero]
          congr 1
          apply List.map_congr_left
          intro i _
          show h.cells.length + 1 + i = h.cells.length + Nat.succ i
          omega
        · show (wDrain fuel h2 _).2.cells.length = _
          rw [hrec.2.1, hlen2]
          simp
          omega
        · intro a ha0 halt
          show (wDrain fuel h2 _).2.read a = h.read a
          rw [hrec.2.2.1 a ha0 (by omega), hold a ha0 halt]
        · intro i hi
          show (wDrain fuel h2 _).2.read (h.cells.length + i) = _
          cases i with
          | zero =>
              simp only [Nat.add_zero]
              rw [hrec.2.2.1 h.cells.length (by omega) (by omega), hwin]
              simp [slideList]
          | succ i =>
              have hi2 : i < r.length := by simp at hi; omega
              have haddr : h.cells.length + (i + 1) = h2.cells.length + i := by omega
              rw [haddr, hrec.2.2.2 i hi2]
              simp [slideList, List.getD_cons_succ]

/-- Sliding the window at position `j` one step: dropping its oldest
element and appending the next upstream element gives the window at
position `j + 1`. -/
theorem slide_window_eq {α : Type} (S : List α) (w j : Nat) (hw : 0 < w) (x : α)
    (r : List α) (hx : S.drop (j + w) = x :: r) :
    ((S.drop j).take w).drop 1 ++ [x] = (S.drop (j + 1)).take w := by
  rw [List.drop_take w 1 (S.drop j), List.drop_drop 1 j S]
  have hw1 : w = (w - 1) + 1 := by omega
  conv_rhs => rw [hw1]
  rw [List.take_succ]
  have hx0 : (S.drop (j + 1))[w - 1]? = some x := by
    rw [List.getElem?_drop]
    have h1 : j + 1 + (w - 1) = j + w + 0 := by omega
    rw [h1, ← List.getElem?_drop, hx]
    simp
  rw [hx0]
  rfl

/-- The slide of the first full window along the rest of the upstream
enumerates the windows at positions `j + 1`, `j + 2`, …. -/
theorem slideList_eq {α : Type} (w : Nat) (hw : 0 < w) :
    ∀ (n : Nat) (S : List α) (j : Nat), (S.drop (j + w)).length = n →
      slideList ((S.drop j).take w) (S.drop (j + w)) =
        (List.range n).map (fun i => (S.drop (j + 1 + i)).take w) := by
  intro n
  induction n with
  | zero =>
      intro S j hn
      rw [List.length_eq_zero] at hn
      rw [hn]
      rfl
  | succ n ih =>
      intro S j hn
      cases hx : S.drop (j + w) with
      | nil => rw [hx] at hn; simp at hn
      | cons x r =>
          have hr : S.drop (j + 1 + w) = r := by
            have h1 : j + 1 + w = j + w + 1 := by omega
            rw [h1, ← List.drop_drop, hx]
            rfl
          have hrn : (S.drop (j + 1 + w)).length = n := by
            rw [hr]
            rw [hx] at hn
            simpa using hn
          have hW1 := slide_window_eq S w j hw x r hx
          show (((S.drop j).take w).drop 1 ++ [x]) ::
              slideList (((S.drop j).take w).drop 1 ++ [x]) r = _
          rw [hW1, ← hr, ih S (j + 1) hrn]
          rw [List.range_succ_eq_map, List.map_cons, List.map_map, Nat.add_zero]
          congr 1
          apply List.map_congr_left
          intro i _
          show (S.drop (j + 1 + 1 + i)).take w = (S.drop (j + 1 + Nat.succ i)).take w
          have h2 : j + 1 + 1 + i = j + 1 + Nat.succ i := by omega
          rw [h2]

/-! ## Claim C6 — `Windows` produces all full windows as fresh snapshots -/

/-- C6: for `w > 0` and `|S| = L ≥ w`, draining `Windows(w)` over `S`
produces exactly `L - w + 1` windows; reading window `i` back from the
final heap gives the slice `S[i : i+w]`; the window objects live at
pairwise distinct addresses, all distinct from the adapter's cache
buffer (address `0`); hence mutating (overwriting) any one returned
window changes neither any other returned window nor the adapter's
buffer. -/
theorem c6_windows_full {α : Type} [Inhabited α] (S : List α) (w : Nat)
    (hw : 0 < w) (hwL : w ≤ S.length) :
    (windowsRun S w).1.length = S.length - w + 1
    ∧ (∀ i, i < (windowsRun S w).1.length →
        (windowsRun S w).2.read ((windowsRun S w).1.getD i 0) = (S.drop i).take w)
    ∧ (∀ i j, i < (windowsRun S w).1.length → j < (windowsRun S w).1.length →
        i ≠ j → (windowsRun S w).1.getD i 0 ≠ (windowsRun S w).1.getD j 0)
    ∧ (∀ i, i < (windowsRun S w).1.length → (windowsRun S w).1.getD i 0 ≠ 0)
    ∧ (∀ i j (v : List α), i < (windowsRun S w).1.length →
        j < (windowsRun S w).1.length → i ≠ j →
        ((windowsRun S w).2.write ((windowsRun S w).1.getD i 0) v).read
            ((windowsRun S w).1.getD j 0) =
          (windowsRun S w).2.read ((windowsRun S w).1.getD j 0)
        ∧ ((windowsRun S w).2.write ((windowsRun S w).1.getD i 0) v).read 0 =
          (windowsRun S w).2.read 0) := by
  have hfuel : (S.drop w).length + 1 ≤ S.length := by
    rw [List.length_drop]; omega
  have hWl : (S.take w).length = w := by
    rw [List.length_take]; omega
  have hcl : ((⟨[S.take w, S.take w]⟩ : WHeap α).read 0).length = w := hWl
  have hinv : ∀ i, i < w →
      ((⟨[S.take w, S.take w]⟩ : WHeap α).read 0).getD ((0 + i) % w) default =
        (S.take w).getD i default := by
    intro i hi
    show (S.take w).getD ((0 + i) % w) default = _
    rw [Nat.zero_add, Nat.mod_eq_of_lt hi]
  have hsteady := wDrain_steady w hw (S.drop w) S.length
    ⟨[S.take w, S.take w]⟩ 0 (S.take w) hfuel hcl hWl hinv
  have hrun : windowsRun S w =
      (1 :: (wDrain S.length (⟨[S.take w, S.take w]⟩ : WHeap α)
        { it := S.drop w, size := w, cacheAddr := 0, ptr := 0 }).1,
       (wDrain S.length (⟨[S.take w, S.take w]⟩ : WHeap α)
        { it := S.drop w, size := w, cacheAddr := 0, ptr := 0 }).2) := by
    rw [windowsRun, wDrain_succ, wNext_first S w hw hwL]
  rw [hrun]
  set D := wDrain S.length (⟨[S.take w, S.take w]⟩ : WHeap α)
    { it := S.drop w, size := w, cacheAddr := 0, ptr := 0 } with hD
  have hlen : (1 :: D.1).length = S.length - w + 1 := by
    rw [List.length_cons, hsteady.1]
    simp [List.length_drop]
  have haddr : ∀ i, i < (1 :: D.1).length → (1 :: D.1).getD i 0 = i + 1 := by
    intro i hi
    cases i with
    | zero => rfl
    | succ k =>
        have hk : k < (S.drop w).length := by
          rw [hlen] at hi
          rw [List.length_drop]
          omega
        show D.1.getD k 0 = k + 2
        rw [hsteady.1, getD_map_range _ _ _ k hk]
        show 2 + k = k + 2
        omega
  have hwin : ∀ i, i < (1 :: D.1).length → D.2.read (i + 1) = (S.drop i).take w := by
    intro i hi
    cases i with
    | zero =>
        have h1 : D.2.read 1 = (⟨[S.take w, S.take w]⟩ : WHeap α).read 1 :=
          hsteady.2.2.1 1 (by omega) (by show 1 < 2; omega)
        rw [h1]
        show S.take w = (S.drop 0).take w
        rw [List.drop_zero]
    | succ k =>
        have hk : k < (S.drop w).length := by
          rw [hlen] at hi
          rw [List.length_drop]
          omega
        have h1 := hsteady.2.2.2 k hk
        have h2 : k + 1 + 1 = (⟨[S.take w, S.take w]⟩ : WHeap α).cells.length + k := by
          show k + 1 + 1 = 2 + k
          omega
        rw [h2, h1]
        have h3 := slideList_eq w hw (S.drop (0 + w)).length S 0 rfl
        rw [List.drop_zero, Nat.zero_add] at h3
        rw [h3, getD_map_range _ _ _ k hk]
        have h4 : 0 + 1 + k = k + 1 := by omega
        rw [h4]
  refine ⟨hlen, ?_, ?_, ?_, ?_⟩
  · intro i hi
    rw [haddr i hi]
    exact hwin i hi
  · intro i j hi hj hij
    rw [haddr i hi, haddr j hj]
    omega
  · intro i hi
    rw [haddr i hi]
    omega
  · intro i j v hi hj hij
    rw [haddr i hi, haddr j hj]
    constructor
    · exact getD_set_ne D.2.cells (i + 1) (j + 1) v [] (by omega)
    · exact getD_set_ne D.2.cells (i + 1) 0 v [] (by omega)

/-- Witness for `c6_windows_full` at `S = [1, 2, 3]`, `w = 2`. -/
theorem c6_windows_full_witness :
    0 < 2
    ∧ 2 ≤ [1, 2, 3].length
    ∧ ((windowsRun [1, 2, 3] 2).1.length = [1, 2, 3].length - 2 + 1
      ∧ (∀ i, i < (windowsRun [1, 2, 3] 2).1.length →
          (windowsRun [1, 2, 3] 2).2.read ((windowsRun [1, 2, 3] 2).1.getD i 0) =
            ([1, 2, 3].drop i).take 2)
      ∧ (∀ i j, i < (windowsRun [1, 2, 3] 2).1.length →
          j < (windowsRun [1, 2, 3] 2).1.length → i ≠ j →
          (windowsRun [1, 2, 3] 2).1.getD i 0 ≠ (windowsRun [1, 2, 3] 2).1.getD j 0)
      ∧ (∀ i, i < (windowsRun [1, 2, 3] 2).1.length →
          (windowsRun [1, 2, 3] 2).1.getD i 0 ≠ 0)
      ∧ (∀ i j (v : List Nat), i < (windowsRun [1, 2, 3] 2).1.length →
          j < (windowsRun [1, 2, 3] 2).1.length → i ≠ j →
          ((windowsRun [1, 2, 3] 2).2.write ((windowsRun [1, 2, 3] 2).1.getD i 0) v).read
              ((windowsRun [1, 2, 3] 2).1.getD j 0) =
            (windowsRun [1, 2, 3] 2).2.read ((windowsRun [1, 2, 3] 2).1.getD j 0)
          ∧ ((windowsRun [1, 2, 3] 2).2.write
                ((windowsRun [1, 2, 3] 2).1.getD i 0) v).read 0 =
            (windowsRun [1, 2, 3] 2).2.read 0)) :=
  ⟨by decide, by decide, c6_windows_full [1, 2, 3] 2 (by decide) (by decide)⟩

/-! ## Claim C1 — `Windows.count` -/

/-- C1: the claim states `Windows.count()` returns
`max(0, N - (w - 1))`, the number of full windows, for every window
size `w`. The code returns `max(0, N - 1)` regardless of `w`
(`_sync.py` lines 611-614), which disagrees with the adapter's own
drain: at `w = 3` over `[1, 2, 3, 4]` the override returns `3` while
draining the adapter produces `2` windows (`max(0, 4 - (3 - 1))`).
The last conjunct shows the code's formula only counts full windows
when `w = 2` here. -/
theorem c1_windows_count_mismatch :
    windowsCount ([1, 2, 3, 4] : List Nat) = 3
    ∧ (windowsRun ([1, 2, 3, 4] : List Nat) 3).1.length = 2
    ∧ max 0 ((4 : Int) - (3 - 1)) = 2
    ∧ (3 : Int) ≠ 2 := by
  refine ⟨by decide, by decide, by decide, by decide⟩

/-! ## Claim C2 — `Cycle` over an empty upstream -/

/-- C2: the claim states that both `Cycle` variants over an empty
upstream signal exhaustion on the first and every later `next` call,
never dividing by zero. The code refutes this for `CycleCached`: its
first `next` over an empty upstream switches to replay mode and then
evaluates `self.ptr % len(self.cache)` with an empty cache, raising
`ZeroDivisionError` (Python's `0 % 0`). `CycleCopy` behaves as claimed:
its `next` raises `StopIteration` and leaves the state fixed, so every
later call raises `StopIteration` too. -/
theorem c2_cycle_empty_upstream :
    ccNext ([] : List Nat) { it := [], ptr := 0, useCache := false } =
      (CCOut.zeroDiv, [], { it := [], ptr := 0, useCache := true })
    ∧ cpNext ({ it := [], orig := [] } : CpSt Nat) =
      CpRes.stop { it := [], orig := [] } := by
  exact ⟨by decide, by decide⟩

/-! ## Claim C3 — `copy()` independence -/

/-- C3: the claim states that after `copy()` the original and the copy
share no mutable state, so advancing one never changes the values the
other will produce. The code refutes this for `CycleCached.copy`, which
aliases the cache (`obj.cache = self.cache`). Scenario: `CycleCached`
over upstream `[1, 2]`, one `next()` taken (cache `[1]`, upstream
`[2]`), then `copy()`. Left alone, the copy produces `2, 1, 2, 1`;
if the original is advanced twice first, the original's pulls and
replay flow through the shared cache and the copy instead produces
`2, 1, 2, 2`. The first conjunct checks the pre-copy `next()` step is
as described; the last two exhibit the interference. -/
theorem c3_cycleCached_copy_shares_cache :
    ccNext ([] : List Nat) { it := [1, 2], ptr := 0, useCache := false } =
      (CCOut.val 1, [1], { it := [2], ptr := 0, useCache := false })
    ∧ runB 4 (ccCopy [1] { it := [2], ptr := 0, useCache := false }) =
      some [2, 1, 2, 1]
    ∧ runB 4 (pairNextA (pairNextA
        (ccCopy [1] { it := [2], ptr := 0, useCache := false })).2).2 =
      some [2, 1, 2, 2] := by
  exact ⟨by decide, by decide, by decide⟩

/-! ## Claim C4 — constructor validation -/

/-- C4 counterexample: constructing `Windows` with the non-positive
size `0` raises nothing — `Windows.__init__` has no validation and
simply stores the fields — contradicting the claim that it raises
`InvalidArgument` at construction time. -/
theorem c4_windows_ctor_never_raises :
    windowsMk ([] : List Nat) 0 =
      Except.ok { it := [], size := 0, cache := [], ptr := 0 } := by
  rfl

/-- C4 amended: for every non-positive step size, `StepBy.__init__`
raises `InvalidArgument` (`ValueError`) synchronously at construction
time; `Windows.__init__` performs no size validation at all, so for the
same non-positive sizes it returns a constructed adapter and raises
nothing. -/
theorem c4_ctor_validation {α : Type} (it : List α) (k : Int) (hk : k ≤ 0) :
    stepByMk it k = Except.error InitErr.invalidArgument
    ∧ windowsMk it k = Except.ok { it := it, size := k, cache := [], ptr := 0 } := by
  exact ⟨by simp [stepByMk, hk], rfl⟩

/-- Witness for `c4_ctor_validation` at `it = []`, `k = 0`. -/
theorem c4_ctor_validation_witness :
    (0 : Int) ≤ 0
    ∧ (stepByMk ([] : List Nat) 0 = Except.error InitErr.invalidArgument
       ∧ windowsMk ([] : List Nat) 0 =
         Except.ok { it := [], size := 0, cache := [], ptr := 0 }) :=
  ⟨by decide, c4_ctor_validation [] 0 (by decide)⟩

/-! ## Claim C5 — `Take` yields and upstream pulls -/

/-- C5 counterexample: `Take(2)` over the one-element upstream `[5]`.
Draining it yields the one item but invokes the upstream's `next`
twice — the successful pull and one further pull that observes
`StopIteration` (`taken` is `1`, not `size`, so `next` pulls again) —
exceeding the claimed bound `min(n, L) = 1` on upstream calls. -/
theorem c5_take_extra_upstream_call :
    (takeDrain 2 { it := [(5 : Nat)], size := 2, taken := 0, calls := 0 }).1 = [5]
    ∧ (takeDrain 2 { it := [(5 : Nat)], size := 2, taken := 0, calls := 0 }).2.calls = 2
    ∧ ¬ ((2 : Nat) ≤ min 2 1) := by
  exact ⟨by decide, by decide, by decide⟩

/-- C5 amended: for every `n ≥ 0` and finite upstream `S` of length
`L`, draining `Take(n)` yields exactly `min(n, L)` items (the first
`n` elements of `S`); the upstream's `next` is invoked exactly `n`
times when `n ≤ L`, and `L + 1` times when `n > L` (the one extra
invocation being the pull that observes `StopIteration`); and once
`taken == size`, `next` signals exhaustion without touching the
upstream (the state, including the upstream and the pull counter, is
returned unchanged). -/
theorem c5_take_drain {α : Type} (S : List α) (n : Int) (hn : 0 ≤ n) :
    (takeDrain (S.length + 1) { it := S, size := n, taken := 0, calls := 0 }).1 =
      S.take n.toNat
    ∧ (takeDrain (S.length + 1) { it := S, size := n, taken := 0, calls := 0 }).1.length =
      min n.toNat S.length
    ∧ (takeDrain (S.length + 1) { it := S, size := n, taken := 0, calls := 0 }).2.calls =
      (if n ≤ (S.length : Int) then n.toNat else S.length + 1)
    ∧ (∀ s : TakeSt α, s.taken = s.size → takeNext s = (none, s)) := by
  have hd := takeDrain_nonneg n S 0 0 (S.length + 1) hn (le_refl _)
  rw [hd]
  refine ⟨by simp, by simp [List.length_take], ?_, ?_⟩
  · simp only [Int.sub_zero, Nat.zero_add]
  · intro s hs
    simp [takeNext, hs]

/-- Witness for `c5_take_drain` at `S = [5, 6]`, `n = 1`. -/
theorem c5_take_drain_witness :
    (0 : Int) ≤ 1
    ∧ ((takeDrain ([(5 : Nat), 6].length + 1)
          { it := [5, 6], size := 1, taken := 0, calls := 0 }).1 =
        [5, 6].take (1 : Int).toNat
      ∧ (takeDrain ([(5 : Nat), 6].length + 1)
          { it := [5, 6], size := 1, taken := 0, calls := 0 }).1.length =
        min (1 : Int).toNat [(5 : Nat), 6].length
      ∧ (takeDrain ([(5 : Nat), 6].length + 1)
          { it := [5, 6], size := 1, taken := 0, calls := 0 }).2.calls =
        (if (1 : Int) ≤ ([(5 : Nat), 6].length : Int) then (1 : Int).toNat
         else [(5 : Nat), 6].length + 1)
      ∧ (∀ s : TakeSt Nat, s.taken = s.size → takeNext s = (none, s))) :=
  ⟨by decide, c5_take_drain [5, 6] 1 (by decide)⟩

/-! ## Claim C7 — `Chain` concatenates -/

/-- C7: `Chain(A, B).collect()` equals `A.collect() ++ B.collect()` for
all finite upstreams, including empty ones; and once `use_second` is
set (after the first exhaustion of `first`), `next` reads only
`second`: the result is `second`'s head (or exhaustion), `first` is
left untouched whatever it is, and `use_second` stays set — the chain
never pulls `first` again. -/
theorem c7_chain_concat {α : Type} (A B : List α) :
    chainCollect A B = A ++ B
    ∧ (∀ f sec : List α,
        chainNext { first := f, second := sec, useSecond := true } =
          (sec.head?, { first := f, second := sec.tail, useSecond := true })) := by
  refine ⟨chainDrain_both A B (A.length + B.length + 1) (le_refl _), ?_⟩
  intro f sec
  cases sec <;> simp [chainNext]

/-! ## Claim C8 — cardinality-preserving `count` -/

/-- C8: `Map.count` and `Enumerate.count` over a root of `S` both
return `len(S)`; the mapping callable is never invoked during `count`
(its instrumented invocation counter stays `0`, and the result does not
depend on the callable at all), the value being obtained by delegating
`count` to the upstream. -/
theorem c8_count_preserving {α β : Type} (S : List α) (f : α → β) :
    (mapCount S f).1 = S.length
    ∧ (mapCount S f).2 = 0
    ∧ enumerateCount S = S.length
    ∧ (∀ g : α → β, mapCount S g = mapCount S f) := by
  refine ⟨?_, rfl, ?_, fun g => rfl⟩
  · simp [mapCount, listCount_eq_length]
  · simp [enumerateCount, listCount_eq_length]

/-! ## Claim C9 — `last()` on an exhausted adapter -/

/-- C9 counterexample: in the `iterators/_sync.py` family, `last()` on
an already-exhausted adapter does not return an Absent value: its first
statement `last = self.next()` raises `StopIteration`, which propagates
out of `last()` to the caller. -/
theorem c9_lastSync_empty_raises :
    lastSync ([] : List Nat) = Except.error () := by
  rfl

/-- C9 amended: `last()` drains the adapter and returns the final value
it produced. When the adapter produces no value at all, the
Maybe-returning implementations (`sync_iterators/_internal.py`,
`iter.py`) return the Absent signal, but the exception-based
implementation (`iterators/_sync.py`) instead lets the initial
`next()`'s `StopIteration` escape from `last()`. -/
theorem c9_last_drains {α : Type} (l : List α) :
    lastMaybe l = l.getLast?
    ∧ lastSync l = (l.getLast?).elim (Except.error ()) Except.ok := by
  cases l with
  | nil => exact ⟨rfl, rfl⟩
  | cons x rest =>
      have h := lastLoop_eq_getLast rest x
      constructor
      · rw [lastMaybe, h, List.getLast?_eq_getLast (x :: rest) (by simp)]
      · rw [lastSync, h, List.getLast?_eq_getLast (x :: rest) (by simp)]
        rfl

/-! ## Claim C10 — `Take` with a negative size -/

/-- C10: constructing `Take` with a negative `size` raises no error
(`Take.__init__` never validates); the drain of `Take(n)` with `n < 0`
yields every upstream element (not zero elements); and the adapter
never signals exhaustion on its own: whenever `next` signals exhaustion
in a reachable state (`taken ≥ 0`) with a negative size, it is because
the upstream itself was exhausted. -/
theorem c10_take_negative_size {α : Type} (S : List α) (n : Int) (hn : n < 0) :
    takeMk S n = Except.ok { it := S, size := n, taken := 0, calls := 0 }
    ∧ (takeDrain (S.length + 1) { it := S, size := n, taken := 0, calls := 0 }).1 = S
    ∧ (∀ s : TakeSt α, s.size < 0 → 0 ≤ s.taken → (takeNext s).1 = none →
        s.it = []) := by
  refine ⟨rfl, ?_, ?_⟩
  · rw [takeDrain_neg n hn S 0 0 (S.length + 1) (le_refl _) (le_refl _)]
  · intro s h1 h2 h3
    have hne : ¬ (s.taken = s.size) := by omega
    cases hit : s.it with
    | nil => rfl
    | cons x rest =>
        rw [takeNext, if_neg hne, hit] at h3
        simp at h3

/-- Witness for `c10_take_negative_size` at `S = [7]`, `n = -1`. -/
theorem c10_take_negative_size_witness :
    (-1 : Int) < 0
    ∧ (takeMk [(7 : Nat)] (-1) =
        Except.ok { it := [7], size := -1, taken := 0, calls := 0 }
      ∧ (takeDrain ([(7 : Nat)].length + 1)
          { it := [7], size := -1, taken := 0, calls := 0 }).1 = [7]
      ∧ (∀ s : TakeSt Nat, s.size < 0 → 0 ≤ s.taken → (takeNext s).1 = none →
          s.it = [])) :=
  ⟨by decide, c10_take_negative_size [7] (-1) (by decide)⟩

end RustyIterators
